import Mathlib

/-!
Verification of the `folly::Range` view abstraction and its `qfind`
substring-search algorithm (`src/folly/Range.h`).

A view (`Range<Iter>`, e.g. `StringPiece = Range<const char*>`) is modelled by
the list of element values it designates, with element values as `Nat`
(character codes).  `size_t` / pointer arithmetic in the algorithm never
overflows for any view that fits in memory, so offsets are modelled as exact
naturals; the one place where machine arithmetic matters — `Range::compare`
storing the `size_t` length difference in a 32-bit `int` — is modelled with
explicit `% 2^64` / `% 2^32` wrap-arounds.  The `std::string::npos` sentinel
returned by the search ("not found") is modelled as `none : Option Nat`, a
found offset as `some k`; `throw std::out_of_range` is modelled as
`Except.error`.
-/

set_option maxHeartbeats 1600000

namespace Folly

/-- `std::string::npos` on a 64-bit platform: `(size_t)-1`, used by
`Range::subpiece` as the default "to the end" length. -/
def stringNpos : Nat := 2 ^ 64 - 1

/-- The stock exact-equality comparator `AsciiCaseSensitive`
(`Range.h` lines 521-525): `operator()(char lhs, char rhs) { return lhs == rhs; }`. -/
def asciiCaseSensitive (lhs rhs : Nat) : Bool := lhs == rhs

/-- The lazy skip computation inside `qfind` (`Range.h` lines 502-507):
`skip = 1; while (skip <= nsize_1 && !eq(needle[nsize_1 - skip], lastNeedle)) ++skip;`
modelled as a recursion on the loop counter `skip`. -/
def skipLoop (eq : Nat → Nat → Bool) (needle : List Nat)
    (lastNeedle nsize1 skip : Nat) : Nat :=
  if h : skip ≤ nsize1 ∧ eq (needle.getD (nsize1 - skip) 0) lastNeedle = false then
    skipLoop eq needle lastNeedle nsize1 (skip + 1)
  else
    skip
termination_by nsize1 + 1 - skip
decreasing_by omega

/-- The lazy caching of the skip value (`Range.h` lines 501-507): `skip == 0`
means "not computed yet"; the skip is computed on the first mismatch and
reused unchanged afterwards. -/
def updateSkip (eq : Nat → Nat → Bool) (needle : List Nat)
    (lastNeedle nsize1 skip : Nat) : Nat :=
  if skip = 0 then skipLoop eq needle lastNeedle nsize1 1 else skip

lemma skipLoop_ge (eq : Nat → Nat → Bool) (needle : List Nat)
    (lastNeedle nsize1 : Nat) :
    ∀ s, s ≤ skipLoop eq needle lastNeedle nsize1 s := by
  have H : ∀ m s, nsize1 + 1 - s ≤ m → s ≤ skipLoop eq needle lastNeedle nsize1 s := by
    intro m
    induction m with
    | zero =>
      intro s hs
      unfold skipLoop
      rw [dif_neg (fun hc => absurd hc.1 (by omega))]
    | succ m ih =>
      intro s hs
      unfold skipLoop
      by_cases hc : s ≤ nsize1 ∧ eq (needle.getD (nsize1 - s) 0) lastNeedle = false
      · rw [dif_pos hc]
        have h2 := ih (s + 1) (by omega)
        omega
      · rw [dif_neg hc]
  intro s
  exact H (nsize1 + 1 - s) s le_rfl

lemma updateSkip_pos (eq : Nat → Nat → Bool) (needle : List Nat)
    (lastNeedle nsize1 skip : Nat) :
    1 ≤ updateSkip eq needle lastNeedle nsize1 skip := by
  unfold updateSkip
  by_cases h : skip = 0
  · rw [if_pos h]
    exact skipLoop_ge eq needle lastNeedle nsize1 1
  · rw [if_neg h]
    omega

/-- The "pedestrian mode" verification loop of `qfind`
(`Range.h` lines 497-516): starting at needle offset `j`, compare
`i[j]` with `needle[j]`; on mismatch report `false` (the caller then skips),
on `++j == nsize` report `true` (match found at haystack offset `i`). -/
def matchLoop (eq : Nat → Nat → Bool) (haystack needle : List Nat)
    (nsize i j : Nat) : Bool :=
  if eq (haystack.getD (i + j) 0) (needle.getD j 0) = false then
    false
  else if _h : nsize ≤ j + 1 then
    true
  else
    matchLoop eq haystack needle nsize i (j + 1)
termination_by nsize - j
decreasing_by omega

/-- The main scan of `qfind` (`Range.h` lines 484-518), with `i` the current
haystack offset and `iEnd` = `haystack.size() - nsize_1` the first invalid
alignment.  The inner `while (!eq(i[nsize_1], lastNeedle)) { if (++i == iEnd)
return npos; }` probe is modelled by the first recursive call (advance by one
and re-test `i < iEnd`, which is exactly the `++i == iEnd` exit); a mismatch
in pedestrian mode advances `i` by the (lazily computed) skip. -/
def qfindLoop (eq : Nat → Nat → Bool) (haystack needle : List Nat)
    (nsize nsize1 lastNeedle iEnd skip i : Nat) : Option Nat :=
  if _h : i < iEnd then
    if eq (haystack.getD (i + nsize1) 0) lastNeedle = false then
      qfindLoop eq haystack needle nsize nsize1 lastNeedle iEnd skip (i + 1)
    else if matchLoop eq haystack needle nsize i 0 = true then
      some i
    else
      qfindLoop eq haystack needle nsize nsize1 lastNeedle iEnd
        (updateSkip eq needle lastNeedle nsize1 skip)
        (i + updateSkip eq needle lastNeedle nsize1 skip)
  else
    none
termination_by iEnd - i
decreasing_by
  · omega
  · have h1 := updateSkip_pos eq needle lastNeedle nsize1 skip
    omega

/-- `qfind(haystack, needle, eq)` (`Range.h` lines 465-519): the
Boyer-Moore-inspired first-occurrence search.  Returns `none` for
`std::string::npos` and `some k` for a match offset `k`. -/
def qfindC (eq : Nat → Nat → Bool) (haystack needle : List Nat) : Option Nat :=
  if haystack.length < needle.length then
    none
  else if needle.length = 0 then
    some 0
  else
    qfindLoop eq haystack needle needle.length (needle.length - 1)
      (needle.getD (needle.length - 1) 0)
      (haystack.length - (needle.length - 1)) 0 0

/-- The two-argument `qfind(haystack, needle)` overload (`Range.h` lines
536-540): the three-argument version specialised to `asciiCaseSensitive`. -/
def qfind (haystack needle : List Nat) : Option Nat :=
  qfindC asciiCaseSensitive haystack needle

/-- The single-element `qfind(haystack, c)` overload (`Range.h` lines
542-546): searches for `makeRange(&needle, &needle + 1)`, the one-element
view containing exactly `c`. -/
def qfindElem (haystack : List Nat) (c : Nat) : Option Nat :=
  qfind haystack [c]

/-- `Range::subpiece(first, length = std::string::npos)` (`Range.h` lines
299-304): the view over `[begin + first, begin + first + min(length, size() - first))`.
Precondition (`CHECK_LE`): `first <= size()`. -/
def subpiece (v : List Nat) (first : Nat) (length : Nat := stringNpos) : List Nat :=
  (v.drop first).take (min length (v.length - first))

/-- `Range::find(str)` (`Range.h` lines 307-309): delegates to `qfind`. -/
def rangeFind (v needle : List Nat) : Option Nat :=
  qfind v needle

/-- `Range::find(str, pos)` (`Range.h` lines 311-315):
`if (pos > size()) return npos; ret = qfind(subpiece(pos), str);
return ret == npos ? ret : ret + pos;`. -/
def rangeFindFrom (v needle : List Nat) (pos : Nat) : Option Nat :=
  if v.length < pos then
    none
  else
    (qfind (subpiece v pos) needle).map (fun ret => ret + pos)

/-- `Range::at(i)` (`Range.h` lines 258-266):
`if (i >= size()) throw std::out_of_range("index out of range"); return b_[i];`. -/
def rangeAt (v : List Nat) (i : Nat) : Except String Nat :=
  if v.length ≤ i then
    Except.error "index out of range"
  else
    Except.ok (v.getD i 0)

/-- `std::char_traits::compare` over two equal-length element sequences
(called by `Range::compare` on the first `min(tsize, osize)` elements):
the sign of the first element difference, elements compared as raw byte
values, `0` when no element differs. -/
def traitsCompare : List Nat → List Nat → Int
  | [], _ => 0
  | _, [] => 0
  | a :: as, b :: bs =>
    if a < b then -1 else if b < a then 1 else traitsCompare as bs

/-- 64-bit unsigned subtraction `x - y` (the `size_t` expression
`tsize - osize` in `Range::compare`). -/
def usub64 (x y : Nat) : Nat :=
  (x + (2 ^ 64 - y % 2 ^ 64)) % 2 ^ 64

/-- Conversion of a `size_t` value to a 32-bit signed `int` (the assignment
`int r; ... r = tsize - osize;` in `Range::compare`): reduce modulo `2^32`
and reinterpret as two's complement. -/
def toInt32 (x : Nat) : Int :=
  if x % 2 ^ 32 < 2 ^ 31 then
    ((x % 2 ^ 32 : Nat) : Int)
  else
    ((x % 2 ^ 32 : Nat) : Int) - 2 ^ 32

/-- `Range::compare(o)` (`Range.h` lines 239-246):
`int r = traits_type::compare(data(), o.data(), msize); if (r == 0) r = tsize - osize;`. -/
def rangeCompare (a b : List Nat) : Int :=
  let tsize := a.length
  let osize := b.length
  let msize := min tsize osize
  let r := traitsCompare (a.take msize) (b.take msize)
  if r = 0 then toInt32 (usub64 tsize osize) else r

/-- `operator==` (`Range.h` lines 376-379):
`lhs.size() == rhs.size() && lhs.compare(rhs) == 0`. -/
def rangeEq (a b : List Nat) : Bool :=
  a.length == b.length && rangeCompare a b == 0

/-- `operator<` (`Range.h` lines 381-384): `lhs.compare(rhs) < 0`. -/
def rangeLt (a b : List Nat) : Bool :=
  decide (rangeCompare a b < 0)

/-- `operator>` derived by `boost::totally_ordered`: `rhs < lhs`. -/
def rangeGt (a b : List Nat) : Bool := rangeLt b a

/-- `operator<=` derived by `boost::totally_ordered`: `!(rhs < lhs)`. -/
def rangeLe (a b : List Nat) : Bool := !(rangeLt b a)

/-- `operator>=` derived by `boost::totally_ordered`: `!(lhs < rhs)`. -/
def rangeGe (a b : List Nat) : Bool := !(rangeLt a b)

/-- `Range::hash()` (`Range.h` lines 269-277): the Bernstein hash
`uint32_t hash = 5381; for (ix = 0; ix < size(); ix++) hash = ((hash << 5) + hash) + b_[ix];`
with every operation wrapping in 32-bit unsigned arithmetic. -/
def rangeHash (v : List Nat) : Nat :=
  (List.range v.length).foldl
    (fun hash ix => (((hash <<< 5) % 2 ^ 32 + hash) % 2 ^ 32 + v.getD ix 0) % 2 ^ 32)
    5381

/-- Specification predicate: the needle occurs as a contiguous sub-sequence of
the haystack at offset `k`. -/
def occursAt (haystack needle : List Nat) (k : Nat) : Prop :=
  (haystack.drop k).take needle.length = needle

instance (haystack needle : List Nat) (k : Nat) : Decidable (occursAt haystack needle k) := by
  unfold occursAt
  infer_instance

lemma occursAt_length {haystack needle : List Nat} {k : Nat}
    (hne : needle.length ≠ 0) (h : occursAt haystack needle k) :
    k + needle.length ≤ haystack.length := by
  unfold occursAt at h
  have hl := congrArg List.length h
  simp only [List.length_take, List.length_drop] at hl
  omega

lemma occursAt_iff_forall {haystack needle : List Nat} {k : Nat}
    (hk : k + needle.length ≤ haystack.length) :
    occursAt haystack needle k ↔
      ∀ j, j < needle.length → haystack.getD (k + j) 0 = needle.getD j 0 := by
  unfold occursAt
  constructor
  · intro h j hj
    have hj2 : j < ((haystack.drop k).take needle.length).length := by
      simp only [List.length_take, List.length_drop]
      omega
    have e1 : ((haystack.drop k).take needle.length)[j] = needle[j] := by
      exact List.getElem_of_eq h hj2
    rw [List.getD_eq_getElem haystack 0 (by omega), List.getD_eq_getElem needle 0 hj]
    rw [← e1, List.getElem_take, List.getElem_drop]
  · intro h
    apply List.ext_getElem
    · simp only [List.length_take, List.length_drop]
      omega
    · intro j hj1 hj2
      rw [List.getElem_take, List.getElem_drop]
      have := h j hj2
      rw [List.getD_eq_getElem haystack 0 (by omega), List.getD_eq_getElem needle 0 hj2] at this
      exact this

lemma acs_eq_true {a b : Nat} : asciiCaseSensitive a b = true ↔ a = b := by
  simp [asciiCaseSensitive]

lemma acs_eq_false {a b : Nat} : asciiCaseSensitive a b = false ↔ a ≠ b := by
  simp [asciiCaseSensitive]

lemma matchLoop_iff (eq : Nat → Nat → Bool) (haystack needle : List Nat) (nsize i : Nat) :
    ∀ m j, nsize - j ≤ m → j < nsize →
      (matchLoop eq haystack needle nsize i j = true ↔
        ∀ l, j ≤ l → l < nsize → eq (haystack.getD (i + l) 0) (needle.getD l 0) = true) := by
  intro m
  induction m with
  | zero =>
    intro j hm hj
    omega
  | succ m ih =>
    intro j hm hj
    unfold matchLoop
    by_cases hc : eq (haystack.getD (i + j) 0) (needle.getD j 0) = false
    · rw [if_pos hc]
      constructor
      · intro hfalse
        exact absurd hfalse (by simp)
      · intro hall
        have h1 := hall j le_rfl hj
        rw [h1] at hc
        exact absurd hc (by simp)
    · have hc' : eq (haystack.getD (i + j) 0) (needle.getD j 0) = true := by
        revert hc
        cases eq (haystack.getD (i + j) 0) (needle.getD j 0) <;> simp
      rw [if_neg hc]
      by_cases h2 : nsize ≤ j + 1
      · rw [dif_pos h2]
        constructor
        · intro _ l hl1 hl2
          have hlj : l = j := by omega
          rw [hlj]
          exact hc'
        · intro _
          rfl
      · rw [dif_neg h2]
        rw [ih (j + 1) (by omega) (by omega)]
        constructor
        · intro hrec l hl1 hl2
          rcases Nat.eq_or_lt_of_le hl1 with he | hlt
          · rw [← he]
            exact hc'
          · exact hrec l hlt hl2
        · intro hall l hl1 hl2
          exact hall l (by omega) hl2

lemma skipLoop_bounds (eq : Nat → Nat → Bool) (needle : List Nat) (lastNeedle nsize1 : Nat) :
    ∀ m s, nsize1 + 1 - s ≤ m →
      ((s ≤ nsize1 + 1 → skipLoop eq needle lastNeedle nsize1 s ≤ nsize1 + 1)
      ∧ (∀ d, s ≤ d → d < skipLoop eq needle lastNeedle nsize1 s →
          d ≤ nsize1 ∧ eq (needle.getD (nsize1 - d) 0) lastNeedle = false)
      ∧ (skipLoop eq needle lastNeedle nsize1 s ≤ nsize1 →
          eq (needle.getD (nsize1 - skipLoop eq needle lastNeedle nsize1 s) 0) lastNeedle = true)) := by
  intro m
  induction m with
  | zero =>
    intro s hm
    have hs : ¬ (s ≤ nsize1 ∧ eq (needle.getD (nsize1 - s) 0) lastNeedle = false) :=
      fun hc => absurd hc.1 (by omega)
    unfold skipLoop
    rw [dif_neg hs]
    exact ⟨fun h => h, fun d hd1 hd2 => absurd hd1 (by omega),
      fun h => absurd h (by omega)⟩
  | succ m ih =>
    intro s hm
    unfold skipLoop
    by_cases hc : s ≤ nsize1 ∧ eq (needle.getD (nsize1 - s) 0) lastNeedle = false
    · rw [dif_pos hc]
      obtain ⟨ih1, ih2, ih3⟩ := ih (s + 1) (by omega)
      refine ⟨fun _ => ih1 (by omega), ?_, ih3⟩
      intro d hd1 hd2
      rcases Nat.eq_or_lt_of_le hd1 with he | hlt
      · rw [← he]
        exact ⟨hc.1, hc.2⟩
      · exact ih2 d hlt hd2
    · rw [dif_neg hc]
      refine ⟨fun h => h, fun d hd1 hd2 => absurd hd1 (by omega), fun h => ?_⟩
      have hnf : ¬ eq (needle.getD (nsize1 - s) 0) lastNeedle = false := fun hf => hc ⟨h, hf⟩
      revert hnf
      cases eq (needle.getD (nsize1 - s) 0) lastNeedle <;> simp

/-- The loop invariant of the main `qfind` scan: from offset `i`, the result
is `none` exactly when no occurrence is at or after `i`, and `some k` exactly
for the leftmost occurrence `k ≥ i`. -/
def QfindInv (haystack needle : List Nat) (i : Nat) (r : Option Nat) : Prop :=
  (r = none → ∀ k, i ≤ k → ¬ occursAt haystack needle k)
  ∧ (∀ k, r = some k → i ≤ k ∧ occursAt haystack needle k
      ∧ ∀ j, i ≤ j → j < k → ¬ occursAt haystack needle j)

lemma qfindLoop_spec (haystack needle : List Nat) (L n1 last iEnd : Nat)
    (hL : L = needle.length) (hne : L ≠ 0) (hsz : L ≤ haystack.length)
    (hn1 : n1 = L - 1) (hlast : last = needle.getD n1 0)
    (hiEnd : iEnd = haystack.length - n1) :
    ∀ m i skip, iEnd - i ≤ m →
      (skip = 0 ∨ skip = skipLoop asciiCaseSensitive needle last n1 1) →
      QfindInv haystack needle i
        (qfindLoop asciiCaseSensitive haystack needle L n1 last iEnd skip i) := by
  intro m
  induction m with
  | zero =>
    intro i skip hm hsk
    unfold qfindLoop
    rw [dif_neg (by omega : ¬ i < iEnd)]
    refine ⟨fun _ k hk hocc => ?_, fun k hk => by simp at hk⟩
    have := occursAt_length (by omega) hocc
    omega
  | succ m ih =>
    intro i skip hm hsk
    by_cases hi : i < iEnd
    case neg =>
      unfold qfindLoop
      rw [dif_neg hi]
      refine ⟨fun _ k hk hocc => ?_, fun k hk => by simp at hk⟩
      have := occursAt_length (by omega) hocc
      omega
    case pos =>
      unfold qfindLoop
      rw [dif_pos hi]
      by_cases hp : asciiCaseSensitive (haystack.getD (i + n1) 0) last = false
      · rw [if_pos hp]
        have hnotI : ¬ occursAt haystack needle i := by
          intro hocc
          have hlen := occursAt_length (by omega) hocc
          have hpt := (occursAt_iff_forall (by omega)).mp hocc n1 (by omega)
          rw [acs_eq_false] at hp
          exact hp (by rw [hpt, hlast])
        obtain ⟨H1, H2⟩ := ih (i + 1) skip (by omega) hsk
        constructor
        · intro hr k hk hocc
          rcases Nat.eq_or_lt_of_le hk with he | hlt
          · rw [← he] at hocc
            exact hnotI hocc
          · exact H1 hr k hlt hocc
        · intro k hk
          obtain ⟨hk1, hk2, hk3⟩ := H2 k hk
          refine ⟨by omega, hk2, ?_⟩
          intro j hj1 hj2
          rcases Nat.eq_or_lt_of_le hj1 with he | hlt
          · rw [← he]
            exact hnotI
          · exact hk3 j hlt hj2
      · have hp' : haystack.getD (i + n1) 0 = last := by
          have hpt : asciiCaseSensitive (haystack.getD (i + n1) 0) last = true := by
            revert hp
            cases asciiCaseSensitive (haystack.getD (i + n1) 0) last <;> simp
          exact acs_eq_true.mp hpt
        rw [if_neg hp]
        by_cases hmt : matchLoop asciiCaseSensitive haystack needle L i 0 = true
        · rw [if_pos hmt]
          have hocc : occursAt haystack needle i := by
            rw [occursAt_iff_forall (by omega : i + needle.length ≤ haystack.length)]
            intro j hj
            have h1 := (matchLoop_iff asciiCaseSensitive haystack needle L i L 0
              (by omega) (by omega)).mp hmt j (by omega) (by omega)
            exact acs_eq_true.mp h1
          refine ⟨fun hr => by simp at hr, fun k hk => ?_⟩
          have hk' : i = k := Option.some.inj hk
          rw [← hk']
          exact ⟨le_rfl, hocc, fun j hj1 hj2 => absurd hj1 (by omega)⟩
        · rw [if_neg hmt]
          have hsval : updateSkip asciiCaseSensitive needle last n1 skip
              = skipLoop asciiCaseSensitive needle last n1 1 := by
            unfold updateSkip
            rcases hsk with h0 | hv
            · rw [if_pos h0]
            · by_cases h0 : skip = 0
              · rw [if_pos h0]
              · rw [if_neg h0, hv]
          rw [hsval]
          have hs1 : 1 ≤ skipLoop asciiCaseSensitive needle last n1 1 :=
            skipLoop_ge asciiCaseSensitive needle last n1 1
          obtain ⟨hb1, hb2, hb3⟩ :=
            skipLoop_bounds asciiCaseSensitive needle last n1 (n1 + 1 - 1) 1 le_rfl
          have hSle : skipLoop asciiCaseSensitive needle last n1 1 ≤ n1 + 1 :=
            hb1 (by omega)
          obtain ⟨H1, H2⟩ := ih (i + skipLoop asciiCaseSensitive needle last n1 1)
            (skipLoop asciiCaseSensitive needle last n1 1) (by omega) (Or.inr rfl)
          have hblock : ∀ j, i ≤ j → j < i + skipLoop asciiCaseSensitive needle last n1 1 →
              ¬ occursAt haystack needle j := by
            intro j hj1 hj2 hocc
            rcases Nat.eq_or_lt_of_le hj1 with he | hlt
            · rw [← he] at hocc
              have hbound := occursAt_length (by omega) hocc
              have hpt := (occursAt_iff_forall hbound).mp hocc
              apply hmt
              rw [matchLoop_iff asciiCaseSensitive haystack needle L i L 0 (by omega) (by omega)]
              intro l hl1 hl2
              rw [acs_eq_true]
              exact hpt l (by omega)
            · obtain ⟨hdle, hdf⟩ := hb2 (j - i) (by omega) (by omega)
              have hbound := occursAt_length (by omega) hocc
              have hpt := (occursAt_iff_forall hbound).mp hocc (n1 - (j - i)) (by omega)
              have hidx : j + (n1 - (j - i)) = i + n1 := by omega
              rw [hidx] at hpt
              rw [acs_eq_false] at hdf
              exact hdf (hpt.symm.trans hp')
          constructor
          · intro hr k hk hocc
            by_cases hcase : k < i + skipLoop asciiCaseSensitive needle last n1 1
            · exact hblock k hk hcase hocc
            · exact H1 hr k (by omega) hocc
          · intro k hk
            obtain ⟨hk1, hk2, hk3⟩ := H2 k hk
            refine ⟨by omega, hk2, ?_⟩
            intro j hj1 hj2
            by_cases hcase : j < i + skipLoop asciiCaseSensitive needle last n1 1
            · exact hblock j hj1 hcase
            · exact hk3 j (by omega) hj2

lemma QfindInv_char {haystack needle : List Nat} {r : Option Nat}
    (h : QfindInv haystack needle 0 r) :
    (∀ k, r = some k ↔ occursAt haystack needle k ∧ ∀ j, j < k → ¬ occursAt haystack needle j)
    ∧ (r = none ↔ ∀ k, ¬ occursAt haystack needle k) := by
  obtain ⟨H1, H2⟩ := h
  constructor
  · intro k
    constructor
    · intro hk
      obtain ⟨_, hocc, hmin⟩ := H2 k hk
      exact ⟨hocc, fun j hj => hmin j (by omega) hj⟩
    · rintro ⟨hocc, hmin⟩
      match hr : r with
      | none => exact absurd hocc (H1 rfl k (by omega))
      | some k2 =>
        obtain ⟨_, hocc2, hmin2⟩ := H2 k2 rfl
        have hkk : k = k2 := by
          rcases Nat.lt_trichotomy k k2 with hlt | he | hgt
          · exact absurd hocc (hmin2 k (by omega) hlt)
          · exact he
          · exact absurd hocc2 (hmin k2 hgt)
        rw [hkk]
  · constructor
    · intro hr k
      exact H1 hr k (by omega)
    · intro hall
      match hr : r with
      | none => rfl
      | some k2 => exact absurd (H2 k2 rfl).2.1 (hall k2)

/-- Shared characterisation of `qfind` under the exact-equality comparator:
`some k` exactly for the leftmost occurrence, `none` exactly when there is no
occurrence at any offset. -/
lemma qfind_char (haystack needle : List Nat) :
    (∀ k, qfind haystack needle = some k ↔
      occursAt haystack needle k ∧ ∀ j, j < k → ¬ occursAt haystack needle j)
    ∧ (qfind haystack needle = none ↔ ∀ k, ¬ occursAt haystack needle k) := by
  by_cases h1 : haystack.length < needle.length
  · have hres : qfind haystack needle = none := by
      unfold qfind qfindC
      rw [if_pos h1]
    have hno : ∀ k, ¬ occursAt haystack needle k := by
      intro k hocc
      have := occursAt_length (by omega) hocc
      omega
    refine ⟨fun k => ?_, ?_⟩
    · rw [hres]
      constructor
      · intro hk
        simp at hk
      · rintro ⟨hk, _⟩
        exact absurd hk (hno k)
    · rw [hres]
      exact ⟨fun _ => hno, fun _ => rfl⟩
  · by_cases h2 : needle.length = 0
    · have hnil : needle = [] := List.length_eq_zero.mp h2
      have hres : qfind haystack needle = some 0 := by
        unfold qfind qfindC
        rw [if_neg h1, if_pos h2]
      have hocc0 : ∀ k, occursAt haystack needle k := by
        intro k
        unfold occursAt
        rw [hnil]
        simp
      refine ⟨fun k => ?_, ?_⟩
      · rw [hres]
        constructor
        · intro hk
          have hk0 : 0 = k := Option.some.inj hk
          rw [← hk0]
          exact ⟨hocc0 0, fun j hj => absurd hj (by omega)⟩
        · rintro ⟨_, hmin⟩
          by_cases hk0 : k = 0
          · rw [hk0]
          · exact absurd (hocc0 0) (hmin 0 (by omega))
      · rw [hres]
        constructor
        · intro h
          simp at h
        · intro hall
          exact absurd (hocc0 0) (hall 0)
    · have hres : qfind haystack needle
          = qfindLoop asciiCaseSensitive haystack needle needle.length (needle.length - 1)
              (needle.getD (needle.length - 1) 0) (haystack.length - (needle.length - 1)) 0 0 := by
        unfold qfind qfindC
        rw [if_neg h1, if_neg h2]
      have hinv := qfindLoop_spec haystack needle needle.length (needle.length - 1)
        (needle.getD (needle.length - 1) 0) (haystack.length - (needle.length - 1))
        rfl h2 (by omega) rfl rfl rfl
        (haystack.length - (needle.length - 1)) 0 0 le_rfl (Or.inl rfl)
      obtain ⟨Hsome, Hnone⟩ := QfindInv_char hinv
      rw [hres]
      exact ⟨Hsome, Hnone⟩

lemma occursAt_singleton {haystack : List Nat} {c k : Nat} :
    occursAt haystack [c] k ↔ k < haystack.length ∧ haystack.getD k 0 = c := by
  constructor
  · intro h
    have hb := occursAt_length (by simp) h
    simp only [List.length_singleton] at hb
    have hpt := (occursAt_iff_forall (by simpa using hb)).mp h 0 (by simp)
    simp only [Nat.add_zero, List.getD] at hpt
    refine ⟨by omega, ?_⟩
    simpa using hpt
  · rintro ⟨hk, hc⟩
    rw [occursAt_iff_forall (by simp; omega)]
    intro j hj
    simp only [List.length_singleton] at hj
    have hj0 : j = 0 := by omega
    subst hj0
    simpa using hc

/-- Claim C1: under the exact-equality comparator, `qfind(H, N)` (and hence
`H.find(N)`, which delegates to it) returns `some k` exactly when `k` is the
smallest offset at which `N` occurs contiguously in `H` (repeated elements
included, since the statement quantifies over all lists), and returns the
`npos` sentinel (`none`) iff `N` occurs at no offset of `H`. -/
theorem qfind_leftmost_correct (haystack needle : List Nat) :
    (∀ k, qfind haystack needle = some k ↔
      occursAt haystack needle k ∧ ∀ j, j < k → ¬ occursAt haystack needle j)
    ∧ (qfind haystack needle = none ↔ ∀ k, ¬ occursAt haystack needle k)
    ∧ rangeFind haystack needle = qfind haystack needle :=
  ⟨(qfind_char haystack needle).1, (qfind_char haystack needle).2, rfl⟩

/-- Claim C4: `qfind` is total (it is a Lean function, so it terminates on
every input) and safe: on every pair it yields either a verified match offset
or the `npos` sentinel, never any other outcome; and whenever the needle is
longer than the haystack it returns `npos` by the initial size test alone —
the result is the same for every haystack of that length, so no element of
either list is consulted. -/
theorem qfind_total_safe (haystack needle : List Nat) :
    (qfind haystack needle = none
      ∨ ∃ k, qfind haystack needle = some k ∧ occursAt haystack needle k)
    ∧ (haystack.length < needle.length → qfind haystack needle = none) := by
  constructor
  · match hr : qfind haystack needle with
    | none => exact Or.inl rfl
    | some k =>
      exact Or.inr ⟨k, rfl, (((qfind_char haystack needle).1 k).mp hr).1⟩
  · intro h
    unfold qfind qfindC
    rw [if_pos h]

theorem qfind_total_safe_witness :
    [0].length < [0, 1].length ∧ qfind [0] [0, 1] = none :=
  ⟨by norm_num, (qfind_total_safe [0] [0, 1]).2 (by norm_num)⟩

/-- Claim C10: the single-element overload `qfind(H, c)` equals the view
search `qfind(H, [c])` (it is defined by wrapping `c` in a one-element
range), the two-argument view overload equals the three-argument `qfind`
specialised to the exact-equality comparator `AsciiCaseSensitive`, and the
resulting single-element search finds exactly the first position holding
`c`. -/
theorem qfindElem_equiv (haystack : List Nat) (c : Nat) :
    qfindElem haystack c = qfind haystack [c]
    ∧ qfind haystack [c] = qfindC asciiCaseSensitive haystack [c]
    ∧ (∀ a b : Nat, asciiCaseSensitive a b = true ↔ a = b)
    ∧ (∀ k, qfindElem haystack c = some k ↔
        (k < haystack.length ∧ haystack.getD k 0 = c
          ∧ ∀ j, j < k → haystack.getD j 0 ≠ c)) := by
  refine ⟨rfl, rfl, fun a b => acs_eq_true, fun k => ?_⟩
  unfold qfindElem
  rw [(qfind_char haystack [c]).1 k]
  constructor
  · rintro ⟨hocc, hmin⟩
    obtain ⟨hk, hc⟩ := occursAt_singleton.mp hocc
    refine ⟨hk, hc, ?_⟩
    intro j hj hcj
    exact hmin j hj (occursAt_singleton.mpr ⟨by omega, hcj⟩)
  · rintro ⟨hk, hc, hmin⟩
    refine ⟨occursAt_singleton.mpr ⟨hk, hc⟩, ?_⟩
    intro j hj hocc
    obtain ⟨hjlen, hjc⟩ := occursAt_singleton.mp hocc
    exact hmin j hj hjc

/-- Claim C2: the skip amount used by `qfind`.  `skip == 0` means "not yet
computed"; `updateSkip` computes it (via `skipLoop`, starting at 1) only in
that case and otherwise returns the cached value unchanged, so within one
invocation the value is computed at most once (on the first inner-loop
mismatch) and then reused.  Its value `s` satisfies: every candidate distance
`d < s` from the needle's last slot lands on an element not `eq`-equal to the
last element; if `s` lands inside the needle it lands on an `eq`-equal
element; if the last element recurs nowhere earlier, `s` is the full needle
length; and in general `s` is the distance from the needle's last position
to the nearest earlier `eq`-equal position. -/
theorem skip_value_spec (eq : Nat → Nat → Bool) (needle : List Nat) (n last s : Nat)
    (hne : needle ≠ [])
    (hn : n = needle.length)
    (hlast : last = needle.getD (n - 1) 0)
    (hs : s = skipLoop eq needle last (n - 1) 1) :
    (1 ≤ s ∧ s ≤ n)
    ∧ (∀ d, 1 ≤ d → d < s → eq (needle.getD (n - 1 - d) 0) last = false)
    ∧ (s ≤ n - 1 → eq (needle.getD (n - 1 - s) 0) last = true)
    ∧ ((∀ p, p + 1 < n → eq (needle.getD p 0) last = false) → s = n)
    ∧ (∀ p, p + 1 < n → eq (needle.getD p 0) last = true →
        (∀ q, p < q → q + 1 < n → eq (needle.getD q 0) last = false) →
        s = n - 1 - p)
    ∧ updateSkip eq needle last (n - 1) 0 = s
    ∧ (∀ sk, sk ≠ 0 → updateSkip eq needle last (n - 1) sk = sk)
    ∧ updateSkip eq needle last (n - 1) s = s := by
  have hpos : 0 < needle.length := List.length_pos.mpr hne
  subst hn
  subst hlast
  subst hs
  obtain ⟨hb1, hb2, hb3⟩ := skipLoop_bounds eq needle (needle.getD (needle.length - 1) 0)
    (needle.length - 1) ((needle.length - 1) + 1 - 1) 1 le_rfl
  have hge := skipLoop_ge eq needle (needle.getD (needle.length - 1) 0) (needle.length - 1) 1
  have hub := hb1 (by omega)
  refine ⟨⟨hge, by omega⟩, ?_, ?_, ?_, ?_, ?_, ?_, ?_⟩
  · intro d hd1 hd2
    exact (hb2 d hd1 hd2).2
  · intro hsle
    exact hb3 hsle
  · intro hall
    by_contra hne2
    have hsle : skipLoop eq needle (needle.getD (needle.length - 1) 0) (needle.length - 1) 1
        ≤ needle.length - 1 := by omega
    have htrue := hb3 hsle
    have hfalse := hall
      (needle.length - 1 - skipLoop eq needle (needle.getD (needle.length - 1) 0) (needle.length - 1) 1)
      (by omega)
    rw [htrue] at hfalse
    exact absurd hfalse (by simp)
  · intro p hp1 hp2 hp3
    have h1 : skipLoop eq needle (needle.getD (needle.length - 1) 0) (needle.length - 1) 1
        ≤ needle.length - 1 - p := by
      by_contra hgt
      have hd := (hb2 (needle.length - 1 - p) (by omega) (by omega)).2
      rw [show needle.length - 1 - (needle.length - 1 - p) = p by omega] at hd
      rw [hp2] at hd
      exact absurd hd (by simp)
    have h2 : ¬ (skipLoop eq needle (needle.getD (needle.length - 1) 0) (needle.length - 1) 1
        < needle.length - 1 - p) := by
      intro hlt
      have htrue := hb3 (by omega)
      have hfalse := hp3
        (needle.length - 1 - skipLoop eq needle (needle.getD (needle.length - 1) 0) (needle.length - 1) 1)
        (by omega) (by omega)
      rw [htrue] at hfalse
      exact absurd hfalse (by simp)
    omega
  · unfold updateSkip
    rw [if_pos rfl]
  · intro sk hsk
    unfold updateSkip
    rw [if_neg hsk]
  · unfold updateSkip
    rw [if_neg (by omega)]

theorem skip_value_spec_witness :
    1 ≤ skipLoop asciiCaseSensitive [1, 2, 1, 3] 3 (4 - 1) 1
    ∧ skipLoop asciiCaseSensitive [1, 2, 1, 3] 3 (4 - 1) 1 ≤ 4 :=
  (skip_value_spec asciiCaseSensitive [1, 2, 1, 3] 4 3
    (skipLoop asciiCaseSensitive [1, 2, 1, 3] 3 (4 - 1) 1)
    (by decide) (by decide) (by decide) rfl).1

lemma subpiece_drop {v : List Nat} (pos : Nat) (hv : v.length < 2 ^ 64) :
    subpiece v pos = v.drop pos := by
  unfold subpiece stringNpos
  rw [show min (2 ^ 64 - 1) (v.length - pos) = v.length - pos by omega]
  rw [show v.length - pos = (v.drop pos).length from (List.length_drop ..).symm]
  exact List.take_length (v.drop pos)

lemma occursAt_drop {v needle : List Nat} {pos r : Nat} :
    occursAt (v.drop pos) needle r ↔ occursAt v needle (pos + r) := by
  unfold occursAt
  rw [List.drop_drop]

/-- Claim C6: `Range::find(needle, pos)` returns `npos` without searching
when `pos > size()`; otherwise it returns the absolute offset of the first
occurrence at or after `pos` (the offset within the suffix plus `pos`), or
`npos` when there is none.  The length bound `v.length < 2^64` reflects that
a view's size fits in `size_t`. -/
theorem rangeFindFrom_spec (v needle : List Nat) (pos : Nat) (hv : v.length < 2 ^ 64) :
    (v.length < pos → rangeFindFrom v needle pos = none)
    ∧ (pos ≤ v.length →
        ((rangeFindFrom v needle pos = none ↔ ∀ k, pos ≤ k → ¬ occursAt v needle k)
        ∧ ∀ k, (rangeFindFrom v needle pos = some k ↔
            pos ≤ k ∧ occursAt v needle k
              ∧ ∀ j, pos ≤ j → j < k → ¬ occursAt v needle j))) := by
  constructor
  · intro h
    unfold rangeFindFrom
    rw [if_pos h]
  · intro hpos
    have hres : rangeFindFrom v needle pos
        = (qfind (v.drop pos) needle).map (fun ret => ret + pos) := by
      unfold rangeFindFrom
      rw [if_neg (by omega), subpiece_drop pos hv]
    obtain ⟨Hsome, Hnone⟩ := qfind_char (v.drop pos) needle
    match hq : qfind (v.drop pos) needle with
    | none =>
      have hnall : ∀ k2, ¬ occursAt (v.drop pos) needle k2 := Hnone.mp hq
      have hres2 : rangeFindFrom v needle pos = none := by
        rw [hres, hq]
        rfl
      constructor
      · rw [hres2]
        refine ⟨fun _ k hk hocc => ?_, fun _ => rfl⟩
        exact hnall (k - pos)
          (occursAt_drop.mpr (by rw [show pos + (k - pos) = k by omega]; exact hocc))
      · intro k
        rw [hres2]
        constructor
        · intro hcontra
          simp at hcontra
        · rintro ⟨hk1, hk2, _⟩
          exact absurd
            (occursAt_drop.mpr (by rw [show pos + (k - pos) = k by omega]; exact hk2))
            (hnall (k - pos))
    | some r =>
      obtain ⟨hocc, hmin⟩ := (Hsome r).mp hq
      have hres2 : rangeFindFrom v needle pos = some (r + pos) := by
        rw [hres, hq]
        rfl
      have hoccv : occursAt v needle (pos + r) := occursAt_drop.mp hocc
      constructor
      · rw [hres2]
        constructor
        · intro hcontra
          simp at hcontra
        · intro hall
          exact absurd hoccv (hall (pos + r) (by omega))
      · intro k
        rw [hres2]
        constructor
        · intro hk
          have hkr : r + pos = k := Option.some.inj hk
          rw [← hkr]
          refine ⟨by omega, by rw [show r + pos = pos + r by omega]; exact hoccv, ?_⟩
          intro j hj1 hj2 hocc2
          exact hmin (j - pos) (by omega)
            (occursAt_drop.mpr (by rw [show pos + (j - pos) = j by omega]; exact hocc2))
        · rintro ⟨hk1, hk2, hk3⟩
          have hkd : occursAt (v.drop pos) needle (k - pos) :=
            occursAt_drop.mpr (by rw [show pos + (k - pos) = k by omega]; exact hk2)
          have hkr : k - pos = r := by
            rcases Nat.lt_trichotomy (k - pos) r with hlt | he | hgt
            · exact absurd hkd (hmin (k - pos) hlt)
            · exact he
            · exact absurd hoccv (hk3 (pos + r) (by omega) (by omega))
          rw [show k = r + pos by omega]

theorem rangeFindFrom_spec_witness :
    ([1, 2, 3] : List Nat).length < 2 ^ 64 ∧ rangeFindFrom [1, 2, 3] [2] 1 = some 1 :=
  ⟨by norm_num,
    ((((rangeFindFrom_spec [1, 2, 3] [2] 1 (by norm_num)).2 (by norm_num)).2 1)).mpr
      ⟨le_rfl, by decide,
        fun j h1 h2 _ => Nat.lt_irrefl 1 (Nat.lt_of_le_of_lt h1 h2)⟩⟩

lemma hashStep_eq (h e : Nat) :
    (((h <<< 5) % 2 ^ 32 + h) % 2 ^ 32 + e) % 2 ^ 32 = (h * 33 + e) % 2 ^ 32 := by
  rw [Nat.shiftLeft_eq]
  omega

lemma foldl_range_getD (v : List Nat) (f : Nat → Nat → Nat) :
    ∀ (len off init : Nat), off + len ≤ v.length →
      (List.range len).foldl (fun h ix => f h (v.getD (off + ix) 0)) init
        = ((v.drop off).take len).foldl f init := by
  intro len
  induction len with
  | zero =>
    intro off init h
    simp
  | succ n ih =>
    intro off init h
    rw [List.range_succ_eq_map]
    simp only [List.foldl_cons, List.foldl_map]
    rw [show (fun (a : Nat) (b : Nat) => f a (v.getD (off + (b + 1)) 0))
          = (fun (a : Nat) (b : Nat) => f a (v.getD ((off + 1) + b) 0)) from
        funext fun a => funext fun b => by rw [show off + (b + 1) = (off + 1) + b by omega]]
    rw [ih (off + 1) (f init (v.getD (off + 0) 0)) (by omega)]
    have hoff : off < v.length := by omega
    rw [List.drop_eq_getElem_cons hoff, List.take_succ_cons, List.foldl_cons]
    congr 2
    rw [Nat.add_zero, List.getD_eq_getElem v 0 hoff]

lemma toInt32_usub64 {n k : Nat} (_hn : n < 2 ^ 64) (_hk : k < 2 ^ 64)
    (h1 : n < k + 2 ^ 31) (h2 : k < n + 2 ^ 31) :
    toInt32 (usub64 n k) = (n : Int) - (k : Int) := by
  unfold toInt32 usub64
  split
  · omega
  · omega

lemma rangeCompare_cons_cons (a b : Nat) (as bs : List Nat)
    (_hbs : bs.length + 1 < 2 ^ 64) :
    rangeCompare (a :: as) (b :: bs)
      = if a < b then -1 else if b < a then 1 else rangeCompare as bs := by
  unfold rangeCompare
  simp only [List.length_cons, Nat.succ_min_succ, List.take_succ_cons]
  simp only [traitsCompare]
  by_cases hab : a < b
  · simp only [if_pos hab]
    norm_num
  · simp only [if_neg hab]
    by_cases hba : b < a
    · simp only [if_pos hba]
      norm_num
    · simp only [if_neg hba]
      have husub : usub64 (as.length + 1) (bs.length + 1) = usub64 as.length bs.length := by
        unfold usub64
        omega
      rw [husub]

lemma lex_trichotomy (A B : List Nat) :
    List.Lex (· < ·) A B ∨ A = B ∨ List.Lex (· < ·) B A := by
  induction A generalizing B with
  | nil =>
    cases B with
    | nil => exact Or.inr (Or.inl rfl)
    | cons b bs => exact Or.inl List.Lex.nil
  | cons a as ih =>
    cases B with
    | nil => exact Or.inr (Or.inr List.Lex.nil)
    | cons b bs =>
      rcases Nat.lt_trichotomy a b with hab | hab | hab
      · exact Or.inl (List.Lex.rel hab)
      · subst hab
        rcases ih bs with h | h | h
        · exact Or.inl (List.Lex.cons h)
        · exact Or.inr (Or.inl (by rw [h]))
        · exact Or.inr (Or.inr (List.Lex.cons h))
      · exact Or.inr (Or.inr (List.Lex.rel hab))

lemma lex_of_take : ∀ (A B : List Nat), A.length < B.length → A = B.take A.length →
    List.Lex (· < ·) A B := by
  intro A
  induction A with
  | nil =>
    intro B hlen htake
    cases B with
    | nil => simp at hlen
    | cons b bs => exact List.Lex.nil
  | cons a as ih =>
    intro B hlen htake
    cases B with
    | nil => simp at hlen
    | cons b bs =>
      simp only [List.length_cons, List.take_succ_cons] at htake
      injection htake with hab hrest
      subst hab
      simp only [List.length_cons] at hlen
      exact List.Lex.cons (ih bs (by omega) hrest)

lemma rangeCompare_aux : ∀ (A B : List Nat), A.length < 2 ^ 64 → B.length < 2 ^ 64 →
    A.length < B.length + 2 ^ 31 → B.length < A.length + 2 ^ 31 →
    ((rangeCompare A B = 0 ↔ A = B) ∧ (rangeCompare A B < 0 ↔ List.Lex (· < ·) A B)) := by
  intro A
  induction A with
  | nil =>
    intro B hA hB h1 h2
    cases B with
    | nil =>
      rw [show rangeCompare ([] : List Nat) [] = 0 from by decide]
      refine ⟨⟨fun _ => rfl, fun _ => rfl⟩, ?_⟩
      constructor
      · intro h
        norm_num at h
      · intro h
        cases h
    | cons b bs =>
      simp only [List.length_cons, List.length_nil] at hB h2
      have hval : rangeCompare [] (b :: bs) = 0 - ((bs.length + 1 : Nat) : Int) := by
        unfold rangeCompare
        simp only [List.length_nil, List.length_cons, Nat.zero_min, List.take_zero]
        simp only [traitsCompare]
        rw [if_pos trivial]
        exact toInt32_usub64 (by norm_num) (by omega) (by omega) (by omega)
      rw [hval]
      constructor
      · constructor
        · intro h
          exfalso
          omega
        · intro h
          exact absurd h (by simp)
      · constructor
        · intro _
          exact List.Lex.nil
        · intro _
          omega
  | cons a as ih =>
    intro B hA hB h1 h2
    simp only [List.length_cons] at hA h1 h2
    cases B with
    | nil =>
      simp only [List.length_nil] at h1
      have hval : rangeCompare (a :: as) [] = ((as.length + 1 : Nat) : Int) := by
        unfold rangeCompare
        simp only [List.length_nil, List.length_cons, Nat.min_zero, List.take_zero]
        simp only [traitsCompare]
        rw [if_pos trivial]
        rw [toInt32_usub64 (by omega) (by norm_num) (by omega) (by omega)]
        omega
      rw [hval]
      constructor
      · constructor
        · intro h
          exfalso
          omega
        · intro h
          exact absurd h (by simp)
      · constructor
        · intro h
          exfalso
          omega
        · intro h
          cases h
    | cons b bs =>
      simp only [List.length_cons] at hB h1 h2
      rw [rangeCompare_cons_cons a b as bs (by omega)]
      rcases Nat.lt_trichotomy a b with hab | hab | hab
      · rw [if_pos hab]
        constructor
        · constructor
          · intro h
            norm_num at h
          · intro h
            simp only [List.cons.injEq] at h
            omega
        · constructor
          · intro _
            exact List.Lex.rel hab
          · intro _
            norm_num
      · subst hab
        rw [if_neg (lt_irrefl a), if_neg (lt_irrefl a)]
        obtain ⟨iheq, ihlt⟩ := ih bs (by omega) (by omega) (by omega) (by omega)
        constructor
        · rw [iheq]
          constructor
          · intro h
            rw [h]
          · intro h
            simp only [List.cons.injEq, true_and] at h
            exact h
        · rw [ihlt]
          constructor
          · intro h
            exact List.Lex.cons h
          · intro h
            cases h with
            | rel hr => exact absurd hr (lt_irrefl a)
            | cons ht => exact ht
      · rw [if_neg (by omega), if_pos hab]
        constructor
        · constructor
          · intro h
            norm_num at h
          · intro h
            simp only [List.cons.injEq] at h
            omega
        · constructor
          · intro h
            norm_num at h
          · intro h
            cases h with
            | rel hr => omega
            | cons ht => omega

/-- Counterexample to claim C5 as stated: `Range::compare` stores the
`size_t` length difference in a 32-bit `int`, so a view of `2^32` equal
elements and the empty view compare as 0 although they are not equal
(`operator==` still distinguishes them because it compares sizes first);
moreover a view of `2^31` elements compares as *less than* the empty view
(the difference wraps to a negative `int`), so the order is not a strict
total order in which a shorter prefix sorts first once sizes differ by
`2^31` or more. -/
theorem rangeCompare_claim_counterexample :
    rangeCompare (List.replicate (2 ^ 32) 0) [] = 0
    ∧ List.replicate (2 ^ 32) 0 ≠ ([] : List Nat)
    ∧ rangeEq (List.replicate (2 ^ 32) 0) [] = false
    ∧ rangeLt (List.replicate (2 ^ 31) 0) [] = true := by
  refine ⟨?_, ?_, ?_, ?_⟩
  · unfold rangeCompare
    simp only [List.length_replicate, List.length_nil, Nat.min_zero, List.take_zero]
    simp only [traitsCompare]
    rw [if_pos trivial]
    unfold usub64 toInt32
    norm_num
  · intro h
    have hcontra := congrArg List.length h
    simp only [List.length_replicate, List.length_nil] at hcontra
    norm_num at hcontra
  · unfold rangeEq
    simp only [List.length_replicate, List.length_nil]
    norm_num
  · unfold rangeLt rangeCompare
    simp only [List.length_replicate, List.length_nil, Nat.min_zero, List.take_zero]
    simp only [traitsCompare]
    rw [if_pos trivial]
    unfold usub64 toInt32
    norm_num

/-- Claim C5 (amended): for views whose sizes fit in `size_t` and differ by
fewer than `2^31` elements (so that the length tie-break survives the
truncation to a 32-bit `int`), `compare` is the three-way lexicographic
comparison: it is 0 iff the views are equal, `operator==` holds iff the
views are equal (this part needs no size restriction in practice since
`operator==` compares sizes first), `compare < 0` coincides with strict
lexicographic order (`List.Lex`, under which a proper prefix sorts first),
the boost-derived `>`, `<=`, `>=` are its dual and negations, and the order
is trichotomous. -/
theorem rangeCompare_order_spec (A B : List Nat)
    (hA : A.length < 2 ^ 64) (hB : B.length < 2 ^ 64)
    (h1 : A.length < B.length + 2 ^ 31) (h2 : B.length < A.length + 2 ^ 31) :
    (rangeCompare A B = 0 ↔ A = B)
    ∧ (rangeEq A B = true ↔ A = B)
    ∧ (rangeLt A B = true ↔ List.Lex (· < ·) A B)
    ∧ (rangeGt A B = true ↔ List.Lex (· < ·) B A)
    ∧ (rangeLe A B = true ↔ ¬ List.Lex (· < ·) B A)
    ∧ (rangeGe A B = true ↔ ¬ List.Lex (· < ·) A B)
    ∧ (rangeLt A B = true ∨ A = B ∨ rangeLt B A = true)
    ∧ (A.length < B.length → A = B.take A.length → rangeLt A B = true) := by
  obtain ⟨heq, hlt⟩ := rangeCompare_aux A B hA hB h1 h2
  obtain ⟨heq2, hlt2⟩ := rangeCompare_aux B A hB hA h2 h1
  have hrlt : rangeLt A B = true ↔ List.Lex (· < ·) A B := by
    unfold rangeLt
    rw [decide_eq_true_eq]
    exact hlt
  have hrlt2 : rangeLt B A = true ↔ List.Lex (· < ·) B A := by
    unfold rangeLt
    rw [decide_eq_true_eq]
    exact hlt2
  refine ⟨heq, ?_, hrlt, hrlt2, ?_, ?_, ?_, ?_⟩
  · unfold rangeEq
    constructor
    · intro h
      simp only [Bool.and_eq_true, beq_iff_eq] at h
      exact heq.mp h.2
    · intro h
      subst h
      simp only [Bool.and_eq_true, beq_iff_eq]
      exact ⟨by simp, heq.mpr rfl⟩
  · unfold rangeLe
    constructor
    · intro h hlex
      rw [hrlt2.mpr hlex] at h
      simp at h
    · intro h
      have hfalse : rangeLt B A = false := by
        cases hb : rangeLt B A
        · rfl
        · exact absurd (hrlt2.mp hb) h
      rw [hfalse]
      rfl
  · unfold rangeGe
    constructor
    · intro h hlex
      rw [hrlt.mpr hlex] at h
      simp at h
    · intro h
      have hfalse : rangeLt A B = false := by
        cases hb : rangeLt A B
        · rfl
        · exact absurd (hrlt.mp hb) h
      rw [hfalse]
      rfl
  · rcases lex_trichotomy A B with h | h | h
    · exact Or.inl (hrlt.mpr h)
    · exact Or.inr (Or.inl h)
    · exact Or.inr (Or.inr (hrlt2.mpr h))
  · intro hl ht
    exact hrlt.mpr (lex_of_take A B hl ht)

theorem rangeCompare_order_spec_witness :
    rangeCompare [1, 2] [1, 2] = 0 ∧ rangeLt [1, 2] [1, 3] = true :=
  ⟨(rangeCompare_order_spec [1, 2] [1, 2] (by norm_num) (by norm_num)
      (by norm_num) (by norm_num)).1.mpr rfl,
   (rangeCompare_order_spec [1, 2] [1, 3] (by norm_num) (by norm_num)
      (by norm_num) (by norm_num)).2.2.1.mpr
      (List.Lex.cons (List.Lex.rel (by norm_num)))⟩

/-- Claim C3: `qfind` with an empty needle returns offset 0 for every
haystack, including the empty haystack (`Range.h` lines 471-475: the
`haystack.size() < nsize` test cannot fire for `nsize == 0`, and
`if (!nsize) return 0;` fires). -/
theorem qfind_empty_needle (haystack : List Nat) : qfind haystack [] = some 0 := by
  simp [qfind, qfindC]

/-- Claim C7: the checked access `Range::at(i)` signals a recoverable
out-of-range error (`throw std::out_of_range`) iff `i >= size()`, and
otherwise returns the element at index `i`.  The view is taken by value and
never mutated, so its bounds are unchanged in both cases (the embedding is a
pure function of the view). -/
theorem rangeAt_spec (v : List Nat) (i : Nat) :
    (i < v.length → rangeAt v i = Except.ok (v.getD i 0))
    ∧ (v.length ≤ i → rangeAt v i = Except.error "index out of range") := by
  constructor
  · intro h
    unfold rangeAt
    rw [if_neg (by omega)]
  · intro h
    unfold rangeAt
    rw [if_pos h]

theorem rangeAt_spec_witness :
    rangeAt [7, 8] 1 = Except.ok 8
    ∧ rangeAt [7, 8] 2 = Except.error "index out of range" :=
  ⟨(rangeAt_spec [7, 8] 1).1 (by norm_num), (rangeAt_spec [7, 8] 2).2 (by norm_num)⟩

/-- Claim C8: under the precondition `first <= size()`, `subpiece(first, length)`
yields a view of size `min(length, size() - first)` whose element at each
index `j` is the original's element at `first + j`; the original view is a
value that `subpiece` does not mutate (`const` member, pure function here). -/
theorem subpiece_spec (v : List Nat) (first length : Nat) (h : first ≤ v.length) :
    (subpiece v first length).length = min length (v.length - first)
    ∧ ∀ j, j < (subpiece v first length).length →
        (subpiece v first length).getD j 0 = v.getD (first + j) 0 := by
  have hlen : (subpiece v first length).length = min length (v.length - first) := by
    simp only [subpiece, List.length_take, List.length_drop]
    omega
  refine ⟨hlen, ?_⟩
  intro j hj
  rw [hlen] at hj
  have hj2 : j < ((v.drop first).take (min length (v.length - first))).length := by
    simp only [List.length_take, List.length_drop]
    omega
  have hfj : first + j < v.length := by omega
  rw [List.getD_eq_getElem _ 0 (by rw [hlen]; omega), List.getD_eq_getElem v 0 hfj]
  show ((v.drop first).take (min length (v.length - first)))[j] = v[first + j]
  rw [List.getElem_take, List.getElem_drop]

theorem subpiece_spec_witness :
    (subpiece [4, 5, 6, 7] 1 2).length = min 2 ([4, 5, 6, 7].length - 1)
    ∧ (subpiece [4, 5, 6, 7] 1 2).getD 0 0 = [4, 5, 6, 7].getD 1 0 :=
  ⟨(subpiece_spec [4, 5, 6, 7] 1 2 (by norm_num)).1,
   (subpiece_spec [4, 5, 6, 7] 1 2 (by norm_num)).2 0 (by norm_num [subpiece, stringNpos])⟩

/-- Claim C9: `Range::hash()` is deterministic (it is a pure function of the
viewed element sequence) and equals the Bernstein rolling hash: seed 5381,
then `hash = hash * 33 + element` in 32-bit modular arithmetic over all
elements in order. -/
theorem rangeHash_spec (v : List Nat) :
    (∀ w : List Nat, w = v → rangeHash w = rangeHash v)
    ∧ rangeHash v = v.foldl (fun hash e => (hash * 33 + e) % 2 ^ 32) 5381 := by
  refine ⟨fun w hw => by rw [hw], ?_⟩
  unfold rangeHash
  rw [show (fun (hash ix : Nat) => (((hash <<< 5) % 2 ^ 32 + hash) % 2 ^ 32 + v.getD ix 0) % 2 ^ 32)
        = (fun (hash ix : Nat) => (hash * 33 + v.getD (0 + ix) 0) % 2 ^ 32) from
      funext fun h => funext fun ix => by rw [Nat.zero_add, hashStep_eq]]
  rw [foldl_range_getD v (fun hash e => (hash * 33 + e) % 2 ^ 32) v.length 0 5381 (by omega)]
  rw [List.drop_zero, List.take_length]

theorem rangeHash_spec_witness :
    rangeHash [1, 2, 3] = [1, 2, 3].foldl (fun hash e => (hash * 33 + e) % 2 ^ 32) 5381
    ∧ rangeHash [1, 2, 3] = rangeHash [1, 2, 3] :=
  ⟨(rangeHash_spec [1, 2, 3]).2, (rangeHash_spec [1, 2, 3]).1 [1, 2, 3] rfl⟩

end Folly
